import Mathlib

/-!
Shallow embedding of jconj's `conj.py`: the suffix-rewrite (`construct`),
the conjugation engine (`conjugate`), the variant merger (`combine_onums`)
and the csv scalar converter (`sbool`).

Modelling conventions:
* Python strings are lists of characters (`Text`); an absent (`None`) or
  empty word is the empty list, matching Python truthiness tests on it.
* Python dicts are association lists in insertion order; the `conjo` rule
  dictionary is a partial function from its 5-tuple key, since the engine
  only ever looks rules up by key.
* Fallible code (`raise ValueError`) is `Except Text`, carrying the
  message the source raises.
-/

deriving instance DecidableEq for Except

set_option synthInstance.maxSize 1024

namespace Jconj

abbrev Text := List Char

/-- Conjugation key (pos, conj, neg, fml, onum) as used in `ct['conjo']`. -/
abbrev ConjKey := Nat × Nat × Bool × Bool × Nat

/-- Reduced key (pos, conj, neg, fml) used by `combine_onums`. -/
abbrev CKey4 := Nat × Nat × Bool × Bool

/-- The kana test on the second-to-last character, from `construct`
    (conj.py line 257): `iskana = txt[-2] > 'あ' and txt[-2] <= 'ん'`.
    Defaults to false on words shorter than 2 characters; `construct`
    guards the length before this test is reached. -/
def iskana (txt : Text) : Bool :=
  match txt.reverse with
  | _ :: c2 :: _ => decide ('あ' < c2) && decide (c2 ≤ 'ん')
  | _ => false

/-- Python's `txt[:-stem]`: the empty string when `stem = 0` (a slice up
    to index 0), otherwise `stem` characters dropped from the end. -/
def pyDropSuffix (txt : Text) (stem : Nat) : Text :=
  if stem = 0 then [] else txt.take (txt.length - stem)

/-- Message of the ValueError raised by `construct` (conj.py line 256). -/
def constructErrMsg : Text :=
  "Conjugatable words must be at least 2 characters long".toList

/-- The suffix-rewrite `construct(txt, stem, okuri, euphr, euphk)`
    (conj.py lines 248-261).  `euphr`/`euphk` model the Python strings,
    empty meaning absent (falsy); `(euphr or '')` is just `euphr` under
    list append. -/
def construct (txt : Text) (stem : Nat) (okuri euphr euphk : Text) :
    Except Text Text :=
  if txt.length < 2 then .error constructErrMsg else
  let kana := iskana txt
  let stem' := if (kana && !euphr.isEmpty) || (!kana && !euphk.isEmpty)
               then stem + 1 else stem
  if kana then .ok (pyDropSuffix txt stem' ++ euphr ++ okuri)
  else .ok (pyDropSuffix txt stem' ++ euphk ++ okuri)

/-- The fields of a `conjo.csv` row that `conjugate` destructures
    (columns 5-8: stem, okuri, euphr, euphk); the leading five columns
    duplicate the key and `pos2` is unused by the code. -/
structure ConjoRow where
  stem : Nat
  okuri : Text
  euphr : Text
  euphk : Text
deriving DecidableEq

/-- The parts of the `ct` bundle of `read_conj_tables` that `conjugate`
    and `combine_onums` consult: the `conj` kind rows (id, description),
    the `conjo` rule dictionary, and the `conjo_notes` defaultdict as an
    association list. -/
structure ConjTable where
  conj : List (Nat × Text)
  conjo : ConjKey → Option ConjoRow
  conjo_notes : List (ConjKey × List Nat)

/-- Python's `(kt + '【' + rt + '】') if kt and rt else (kt or rt)`
    (conj.py line 244). -/
def combineTexts (kt rt : Text) : Text :=
  if !kt.isEmpty && !rt.isEmpty then kt ++ '【' :: (rt ++ ['】'])
  else if kt.isEmpty then rt else kt

/-- Python's `range(1,10)` (conj.py line 239). -/
def onums : List Nat := List.range' 1 9

/-- Python's `construct(txt, ...) if txt else ''` (conj.py lines
    242-243): an absent or empty word is not conjugated. -/
def conjPart (txt : Text) (row : ConjoRow) : Except Text Text :=
  if txt.isEmpty then .ok []
  else construct txt row.stem row.okuri row.euphr row.euphk

/-- The inner onum loop of `conjugate` (conj.py lines 239-245) over a
    list of onum values: stops at the first key absent from `conjo`
    (the `except KeyError: break`), otherwise conjugates the kanji and
    kana texts (skipping an absent text) and records the entry. -/
def scanRun (ktxt rtxt : Text) (pos c : Nat) (neg fml : Bool)
    (tbl : ConjKey → Option ConjoRow) :
    List Nat → Except Text (List (ConjKey × Text))
  | [] => .ok []
  | o :: rest =>
    match tbl (pos, c, neg, fml, o) with
    | none => .ok []
    | some row =>
      match conjPart ktxt row with
      | .error e => .error e
      | .ok kt =>
        match conjPart rtxt row with
        | .error e => .error e
        | .ok rt =>
          match scanRun ktxt rtxt pos c neg fml tbl rest with
          | .error e => .error e
          | .ok more => .ok (((pos, c, neg, fml, o), combineTexts kt rt) :: more)

/-- The `(neg, fml)` combinations `(0,0),(0,1),(1,0),(1,1)` of
    conj.py line 237. -/
def cellCombos : List (Bool × Bool) :=
  [(false, false), (false, true), (true, false), (true, true)]

/-- The `(neg, fml)` loop of `conjugate`, accumulating the entries of
    each cell's variant run; an error from `construct` propagates. -/
def goCombos (ktxt rtxt : Text) (pos c : Nat)
    (tbl : ConjKey → Option ConjoRow) :
    List (Bool × Bool) → Except Text (List (ConjKey × Text))
  | [] => .ok []
  | (neg, fml) :: rest =>
    match scanRun ktxt rtxt pos c neg fml tbl onums with
    | .error e => .error e
    | .ok xs =>
      match goCombos ktxt rtxt pos c tbl rest with
      | .error e => .error e
      | .ok ys => .ok (xs ++ ys)

/-- The outer loop of `conjugate` over conjugation-kind ids. -/
def goKinds (ktxt rtxt : Text) (pos : Nat)
    (tbl : ConjKey → Option ConjoRow) :
    List Nat → Except Text (List (ConjKey × Text))
  | [] => .ok []
  | c :: cs =>
    match goCombos ktxt rtxt pos c tbl cellCombos with
    | .error e => .error e
    | .ok xs =>
      match goKinds ktxt rtxt pos tbl cs with
      | .error e => .error e
      | .ok ys => .ok (xs ++ ys)

/-- The engine `conjugate(ktxt, rtxt, pos, ct)` (conj.py lines 219-246):
    iterates the conjugation kinds sorted by id (the descriptions are
    unused), the four `(neg, fml)` combinations and the onum run, and
    returns the dict of conjugated forms as an association list.  A
    ValueError raised by `construct` propagates uncaught. -/
def conjugate (ktxt rtxt : Text) (pos : Nat) (ct : ConjTable) :
    Except Text (List (ConjKey × Text)) :=
  goKinds ktxt rtxt pos ct.conjo
    ((ct.conj.map Prod.fst).insertionSort (· ≤ ·))

/-- Python dict lookup on an association list (first matching key). -/
def alookup {α β : Type} [DecidableEq α] (k : α) : List (α × β) → Option β
  | [] => none
  | p :: rest => if p.1 = k then some p.2 else alookup k rest

/-- Note ids attached to a conjugation key in the `conjo_notes` table,
    empty when the key is absent. -/
def notesOf (tbl : List (ConjKey × List Nat)) (k : ConjKey) : List Nat :=
  (alookup k tbl).getD []

/-- Lookup in the `conjo_notes` defaultdict: a missing key is inserted
    (at the end, in dict insertion order) with the default empty list
    and that default is returned, exactly as Python's
    `collections.defaultdict(list)` behaves on `ct['conjo_notes'][key]`. -/
def ddGet (d : List (ConjKey × List Nat)) (k : ConjKey) :
    List Nat × List (ConjKey × List Nat) :=
  match alookup k d with
  | some v => (v, d)
  | none => ([], d ++ [(k, [])])

/-- Python's `'[' + ','.join([str(x) for x in notes]) + ']'`
    (conj.py line 190): the note ids in table order, not sorted. -/
def notesText (notes : List Nat) : Text :=
  '[' :: (List.intercalate [','] (notes.map (fun x => Nat.toDigits 10 x)) ++ [']'])

/-- Projection of the 5-tuple key to (pos, conj, neg, fml). -/
def key4 (k : ConjKey) : CKey4 := (k.1, k.2.1, k.2.2.1, k.2.2.2.1)

/-- The `newconjs` update of `combine_onums` (conj.py lines 191-194): a
    fresh reduced key is appended, an existing one gets `' / ' + txt`
    appended to its text in place. -/
def addConj (m : List (CKey4 × Text)) (k : CKey4) (txt : Text) :
    List (CKey4 × Text) :=
  match alookup k m with
  | none => m ++ [(k, txt)]
  | some _ => m.map (fun p => if p.1 = k then (p.1, p.2 ++ ' ' :: '/' :: ' ' :: txt) else p)

/-- Join of variant texts with the `' / '` separator `combine_onums`
    inserts between forms of the same cell. -/
def joinSlash : List Text → Text
  | [] => []
  | [t] => t
  | t :: ts => t ++ ' ' :: '/' :: ' ' :: joinSlash ts

/-- The note annotation of one processed entry: the bracketed,
    comma-joined note ids of its key in table order, appended exactly
    when that note set is non-empty (conj.py line 190). -/
def annotate (tbl : List (ConjKey × List Nat)) (k : ConjKey) (txt : Text) :
    Text :=
  if (notesOf tbl k).isEmpty then txt else txt ++ notesText (notesOf tbl k)

/-- Value of one merged cell: the variant texts joined by `' / '`,
    prefixed by an already-present text for the same reduced key. -/
def mergedCell : Option Text → List Text → Option Text
  | none, [] => none
  | none, ts => some (joinSlash ts)
  | some t, ts => some (joinSlash (t :: ts))

/-- Python's `False < True` on sort keys: bools compare as 0 and 1. -/
def boolNat (b : Bool) : Nat := if b then 1 else 0

/-- The lexicographic tuple order Python's `sorted` uses on the 5-tuple
    keys of the `conjs` dict. -/
def keyLe (a b : ConjKey) : Prop :=
  a.1 < b.1 ∨ (a.1 = b.1 ∧ (a.2.1 < b.2.1 ∨ (a.2.1 = b.2.1 ∧
    (boolNat a.2.2.1 < boolNat b.2.2.1 ∨ (boolNat a.2.2.1 = boolNat b.2.2.1 ∧
      (boolNat a.2.2.2.1 < boolNat b.2.2.2.1 ∨ (boolNat a.2.2.2.1 = boolNat b.2.2.2.1 ∧
        a.2.2.2.2 ≤ b.2.2.2.2)))))))

instance : DecidableRel keyLe := fun a b => by
  unfold keyLe; infer_instance

/-- Python's `sorted(conjs.keys())`. -/
def sortKeys (ks : List ConjKey) : List ConjKey := ks.insertionSort keyLe

/-- The loop body fold of `combine_onums` (conj.py lines 185-194) over
    the sorted key list.  State: the `newconjs` dict, the `allnotes` set
    and the `conjo_notes` defaultdict (which the body's lookup mutates).
    The `find` function is dict indexing `conjs[key]`; a `none` result
    cannot occur for keys drawn from `conjs` and is skipped. -/
def coLoop (find : ConjKey → Option Text) :
    List ConjKey →
    List (CKey4 × Text) × Finset Nat × List (ConjKey × List Nat) →
    List (CKey4 × Text) × Finset Nat × List (ConjKey × List Nat)
  | [], st => st
  | key :: rest, (newconjs, allnotes, d) =>
    match find key with
    | none => coLoop find rest (newconjs, allnotes, d)
    | some txt =>
      let nd := ddGet d key
      let txt' := if nd.1.isEmpty then txt else txt ++ notesText nd.1
      coLoop find rest
        (addConj newconjs (key4 key) txt', allnotes ∪ nd.1.toFinset, nd.2)

/-- The variant merger `combine_onums(conjs, ct)` (conj.py lines 175-195),
    returning the merged dict, the accumulated note-id set, and the
    `conjo_notes` table as it stands after the merge (the defaultdict
    lookups may have grown it). -/
def combine_onums (conjs : List (ConjKey × Text))
    (conjo_notes : List (ConjKey × List Nat)) :
    List (CKey4 × Text) × Finset Nat × List (ConjKey × List Nat) :=
  coLoop (fun k => alookup k conjs) (sortKeys (conjs.map Prod.fst))
    ([], ∅, conjo_notes)

/-- Python's `s.startswith(c)` for a one-character prefix `c`. -/
def pyStartswith (s : Text) (c : Char) : Bool :=
  match s with
  | [] => false
  | x :: _ => x == c

/-- The csv boolean converter `sbool` (conj.py lines 364-368):
    `arg.lower().startswith('f')` gives False, `.startswith('t')` gives
    True, anything else raises `ValueError(arg)`.  Python lowercases the
    string character by character; `Char.toLower` covers the ASCII
    letters, and no character outside ASCII lowercases to 'f' or 't'. -/
def sbool (arg : Text) : Except Text Bool :=
  if pyStartswith (arg.map Char.toLower) 'f' then .ok false
  else if pyStartswith (arg.map Char.toLower) 't' then .ok true
  else .error arg

/-- Modelled from the words of the specification for comparison with
    `construct`: remove exactly the effective trim length of characters
    from the end of the word, then append the euphonic replacement for
    the word's class, then the okurigana. -/
def constructSpec (txt : Text) (stem : Nat) (okuri euphr euphk : Text) :
    Except Text Text :=
  if txt.length < 2 then .error constructErrMsg else
  let kana := iskana txt
  let eff := if (kana && !euphr.isEmpty) || (!kana && !euphk.isEmpty)
             then stem + 1 else stem
  .ok (txt.take (txt.length - eff) ++ (if kana then euphr else euphk) ++ okuri)

/-- The effective trim length of the suffix-rewrite: `stem` plus the
    extra character consumed when the euphonic replacement for the
    word's class is present (conj.py line 258). -/
def effTrim (txt : Text) (stem : Nat) (euphr euphk : Text) : Nat :=
  if (iskana txt && !euphr.isEmpty) || (!(iskana txt) && !euphk.isEmpty)
  then stem + 1 else stem

/-- Invariant of the `conjo_notes` defaultdict during a merge: it is the
    original table followed by entries whose note lists are all empty
    (the inserted defaults). -/
def extOk (tbl d : List (ConjKey × List Nat)) : Prop :=
  ∃ ext, d = tbl ++ ext ∧ ∀ p ∈ ext, p.2 = ([] : List Nat)

/-! Concrete tables and result lists used by individual witnesses and
    counterexamples below. -/

/-- A table with a single conjugation kind and an 10-variant run for
    the cell (pos 1, conj 1, affirmative, plain). -/
def ctW3x : ConjTable where
  conj := [(1, ['a'])]
  conjo := fun k =>
    if k.1 = 1 ∧ k.2.1 = 1 ∧ k.2.2.1 = false ∧ k.2.2.2.1 = false ∧
       1 ≤ k.2.2.2.2 ∧ k.2.2.2.2 ≤ 10
    then some ⟨1, "た".toList, [], []⟩ else none
  conjo_notes := []

/-- What `conjugate` returns on `ctW3x`: only variants 1 through 9. -/
def resW3x : List (ConjKey × Text) :=
  (List.range' 1 9).map
    (fun o => (((1, 1, false, false, o) : ConjKey), "たべた".toList))

/-- A table with a two-variant run for (pos 7, conj 1, aff, plain). -/
def ctW3 : ConjTable where
  conj := [(1, ['a'])]
  conjo := fun k =>
    if k.1 = 7 ∧ k.2.1 = 1 ∧ k.2.2.1 = false ∧ k.2.2.2.1 = false ∧
       1 ≤ k.2.2.2.2 ∧ k.2.2.2.2 ≤ 2
    then some ⟨1, "た".toList, [], []⟩ else none
  conjo_notes := []

/-- What `conjugate` returns on `ctW3`. -/
def resW3 : List (ConjKey × Text) :=
  [((7, 1, false, false, 1), "たべた".toList),
   ((7, 1, false, false, 2), "たべた".toList)]

/-- A table with a one-variant run for (pos 5, conj 1, aff, plain). -/
def ctW9 : ConjTable where
  conj := [(1, ['a'])]
  conjo := fun k =>
    if k = (5, 1, false, false, 1) then some ⟨1, "た".toList, [], []⟩ else none
  conjo_notes := []

/-- What `conjugate` returns on `ctW9`. -/
def resW9 : List (ConjKey × Text) :=
  [((5, 1, false, false, 1), "たべた".toList)]

/-! ### Helper lemmas -/

theorem alookup_append {α β : Type} [DecidableEq α] (k : α)
    (l₁ l₂ : List (α × β)) :
    alookup k (l₁ ++ l₂) =
      (match alookup k l₁ with
       | some v => some v
       | none => alookup k l₂) := by
  induction l₁ with
  | nil => rfl
  | cons p rest ih =>
    by_cases h : p.1 = k
    · simp [alookup, h]
    · simp [alookup, h, ih]

theorem alookup_mem {α β : Type} [DecidableEq α] {k : α} {v : β}
    {l : List (α × β)} (h : alookup k l = some v) : (k, v) ∈ l := by
  induction l with
  | nil => exact absurd h (by simp [alookup])
  | cons p rest ih =>
    by_cases hp : p.1 = k
    · obtain ⟨p1, p2⟩ := p
      simp only [alookup, if_pos hp] at h
      injection h with h'
      subst h'
      obtain rfl : p1 = k := hp
      exact List.mem_cons_self _ _
    · simp only [alookup, if_neg hp] at h
      exact List.mem_cons_of_mem _ (ih h)

theorem alookup_isSome_of_mem {α β : Type} [DecidableEq α] {k : α}
    {l : List (α × β)} (h : k ∈ l.map Prod.fst) :
    (alookup k l).isSome = true := by
  induction l with
  | nil => simp at h
  | cons p rest ih =>
    by_cases hp : p.1 = k
    · simp [alookup, hp]
    · simp only [List.map, List.mem_cons] at h
      rcases h with h | h

      · exact absurd h.symm hp
      · simp [alookup, hp, ih h]

theorem alookup_perm {β : Type} {l₁ l₂ : List (ConjKey × β)}
    (hp : l₁.Perm l₂) :
    (l₁.map Prod.fst).Nodup → ∀ k, alookup k l₁ = alookup k l₂ := by
  induction hp with
  | nil => intro _ k; rfl
  | cons x h ih =>
    intro hnd k
    simp only [alookup]
    by_cases hx : x.1 = k
    · rw [if_pos hx, if_pos hx]
    · rw [if_neg hx, if_neg hx]
      exact ih (by simp only [List.map, List.nodup_cons] at hnd; exact hnd.2) k
  | swap x y l =>
    intro hnd k
    have hxy : y.1 ≠ x.1 := by
      simp only [List.map, List.nodup_cons, List.mem_cons] at hnd
      intro h
      exact hnd.1 (Or.inl h)
    simp only [alookup]
    by_cases hy : y.1 = k <;> by_cases hx : x.1 = k
    · exact absurd (hy.trans hx.symm) hxy
    · rw [if_pos hy, if_neg hx, if_pos hy]
    · rw [if_neg hy, if_pos hx, if_pos hx]
    · rw [if_neg hy, if_neg hx, if_neg hx, if_neg hy]
  | trans h₁ h₂ ih₁ ih₂ =>
    intro hnd k
    rw [ih₁ hnd k, ih₂ (((h₁.map Prod.fst).nodup_iff).mp hnd) k]

instance : IsTotal ConjKey keyLe :=
  ⟨by intro a b; unfold keyLe; omega⟩

instance : IsTrans ConjKey keyLe :=
  ⟨by intro a b c; unfold keyLe; omega⟩

instance : IsAntisymm ConjKey keyLe := ⟨by
  rintro ⟨a1, a2, a3, a4, a5⟩ ⟨b1, b2, b3, b4, b5⟩ h h'
  unfold keyLe at h h'
  dsimp only at h h'
  obtain rfl : a1 = b1 := by omega
  obtain rfl : a2 = b2 := by omega
  obtain rfl : a3 = b3 := by
    have hb : boolNat a3 = boolNat b3 := by omega
    cases a3 <;> cases b3 <;> simp_all [boolNat]
  obtain rfl : a4 = b4 := by
    have hb : boolNat a4 = boolNat b4 := by omega
    cases a4 <;> cases b4 <;> simp_all [boolNat]
  obtain rfl : a5 = b5 := by omega
  rfl⟩

theorem sortKeys_eq_of_perm {ks₁ ks₂ : List ConjKey} (h : ks₁.Perm ks₂) :
    sortKeys ks₁ = sortKeys ks₂ :=
  List.eq_of_perm_of_sorted
    ((List.perm_insertionSort _ _).trans (h.trans (List.perm_insertionSort _ _).symm))
    (List.sorted_insertionSort _ _) (List.sorted_insertionSort _ _)

theorem ddGet_of_extOk {tbl d : List (ConjKey × List Nat)} (k : ConjKey)
    (h : extOk tbl d) :
    (ddGet d k).1 = notesOf tbl k ∧ extOk tbl (ddGet d k).2 := by
  obtain ⟨ext, rfl, hext⟩ := h
  unfold ddGet notesOf
  rw [alookup_append]
  cases h1 : alookup k tbl with
  | some v =>
    exact ⟨rfl, ext, rfl, hext⟩
  | none =>
    cases h2 : alookup k ext with
    | some v =>
      have hv : v = [] := hext _ (alookup_mem h2)
      subst hv
      exact ⟨rfl, ext, rfl, hext⟩
    | none =>
      refine ⟨rfl, ext ++ [(k, [])], by rw [List.append_assoc], ?_⟩
      intro p hp
      rcases List.mem_append.mp hp with hp | hp
      · exact hext _ hp
      · simp at hp
        rw [hp]

theorem foldr_union_perm {γ : Type} [DecidableEq γ] (g : ConjKey → Finset γ)
    {l₁ l₂ : List ConjKey} (h : l₁.Perm l₂) (init : Finset γ) :
    l₁.foldr (fun k acc => g k ∪ acc) init =
      l₂.foldr (fun k acc => g k ∪ acc) init := by
  induction h with
  | nil => rfl
  | cons x h ih => simp only [List.foldr, ih]
  | swap x y l => simp only [List.foldr, Finset.union_left_comm]
  | trans h₁ h₂ ih₁ ih₂ => rw [ih₁, ih₂]

theorem coLoop_extOk (find : ConjKey → Option Text)
    (tbl : List (ConjKey × List Nat)) :
    ∀ (ks : List ConjKey) (nc : List (CKey4 × Text)) (an : Finset Nat)
      (d : List (ConjKey × List Nat)), extOk tbl d →
      extOk tbl (coLoop find ks (nc, an, d)).2.2 := by
  intro ks
  induction ks with
  | nil => intro nc an d h; exact h
  | cons k ks ih =>
    intro nc an d h
    unfold coLoop
    cases hf : find k with
    | none => exact ih nc an d h
    | some txt => exact ih _ _ _ (ddGet_of_extOk k h).2

theorem coLoop_notes (find : ConjKey → Option Text)
    (tbl : List (ConjKey × List Nat)) :
    ∀ (ks : List ConjKey) (nc : List (CKey4 × Text)) (an : Finset Nat)
      (d : List (ConjKey × List Nat)), extOk tbl d →
      (coLoop find ks (nc, an, d)).2.1 =
        an ∪ (ks.filter (fun k => (find k).isSome)).foldr
          (fun k acc => (notesOf tbl k).toFinset ∪ acc) ∅ := by
  intro ks
  induction ks with
  | nil => intro nc an d h; simp [coLoop]
  | cons k ks ih =>
    intro nc an d h
    unfold coLoop
    cases hf : find k with
    | none =>
      rw [ih nc an d h]
      simp [List.filter, hf]
    | some txt =>
      rw [ih _ _ _ (ddGet_of_extOk k h).2]
      rw [(ddGet_of_extOk k h).1]
      simp only [List.filter, hf, Option.isSome_some, List.foldr]
      rw [Finset.union_assoc]

theorem charToNat_inj {a b : Char} (h : a.toNat = b.toNat) : a = b :=
  Char.ext (UInt32.ext h)

theorem charOfNat_toNat {m : Nat} (h : m < 55296) : (Char.ofNat m).toNat = m := by
  have hv : m.isValidChar := Or.inl h
  simp only [Char.ofNat, dif_pos hv, Char.ofNatAux, Char.toNat]
  rfl

theorem toLower_eq_iff (c l u : Char) (hlu : l.toNat = u.toNat + 32)
    (hu1 : 65 ≤ u.toNat) (hu2 : u.toNat ≤ 90) :
    Char.toLower c = l ↔ (c = l ∨ c = u) := by
  by_cases h : c.toNat ≥ 65 ∧ c.toNat ≤ 90
  · have hl : Char.toLower c = Char.ofNat (c.toNat + 32) := by
      unfold Char.toLower
      show (if c.toNat ≥ 65 ∧ c.toNat ≤ 90 then Char.ofNat (c.toNat + 32) else c) = _
      rw [if_pos h]
    rw [hl]
    constructor
    · intro hf
      have h2 : c.toNat + 32 = l.toNat := by
        have h3 := congrArg Char.toNat hf
        rwa [charOfNat_toNat (by omega)] at h3
      exact Or.inr (charToNat_inj (by omega))
    · rintro (rfl | rfl)
      · exfalso; omega
      · exact charToNat_inj (by rw [charOfNat_toNat (by omega)]; omega)
  · have hl : Char.toLower c = c := by
      unfold Char.toLower
      show (if c.toNat ≥ 65 ∧ c.toNat ≤ 90 then Char.ofNat (c.toNat + 32) else c) = _
      rw [if_neg h]
    rw [hl]
    constructor
    · exact Or.inl
    · rintro (rfl | rfl)
      · rfl
      · exact absurd ⟨by omega, by omega⟩ h

theorem toLower_eq_f (c : Char) : Char.toLower c = 'f' ↔ (c = 'f' ∨ c = 'F') :=
  toLower_eq_iff c 'f' 'F' (by decide) (by decide) (by decide)

theorem toLower_eq_t (c : Char) : Char.toLower c = 't' ↔ (c = 't' ∨ c = 'T') :=
  toLower_eq_iff c 't' 'T' (by decide) (by decide) (by decide)

theorem alookup_map_slash (m : List (CKey4 × Text)) (k : CKey4) (txt' : Text) :
    alookup k (m.map fun p =>
        if p.1 = k then (p.1, p.2 ++ ' ' :: '/' :: ' ' :: txt') else p) =
      (alookup k m).map (fun t => t ++ ' ' :: '/' :: ' ' :: txt') := by
  induction m with
  | nil => rfl
  | cons p rest ih =>
    by_cases hp : p.1 = k
    · simp [alookup, hp]
    · simp [alookup, hp, ih]

theorem alookup_map_slash_other (m : List (CKey4 × Text)) (k k' : CKey4)
    (txt' : Text) (h : k ≠ k') :
    alookup k' (m.map fun p =>
        if p.1 = k then (p.1, p.2 ++ ' ' :: '/' :: ' ' :: txt') else p) =
      alookup k' m := by
  induction m with
  | nil => rfl
  | cons p rest ih =>
    have h2 : k' ≠ k := Ne.symm h
    by_cases hp : p.1 = k
    · have hp' : p.1 ≠ k' := by rw [hp]; exact h
      simp [alookup, hp, hp', ih, h, h2]
    · by_cases hp' : p.1 = k'
      · simp [alookup, hp, hp', h, h2]
      · simp [alookup, hp, hp', ih, h, h2]

theorem alookup_addConj_eq (m : List (CKey4 × Text)) (k : CKey4)
    (txt' : Text) :
    alookup k (addConj m k txt') =
      (match alookup k m with
       | none => some txt'
       | some t => some (t ++ ' ' :: '/' :: ' ' :: txt')) := by
  unfold addConj
  cases h : alookup k m with
  | none =>
    show alookup k (m ++ [(k, txt')]) = some txt'
    rw [alookup_append, h]
    simp [alookup]
  | some t =>
    show alookup k (m.map fun p =>
        if p.1 = k then (p.1, p.2 ++ ' ' :: '/' :: ' ' :: txt') else p) = _
    rw [alookup_map_slash, h]
    rfl

theorem alookup_addConj_ne (m : List (CKey4 × Text)) (k k' : CKey4)
    (txt' : Text) (h : k ≠ k') :
    alookup k' (addConj m k txt') = alookup k' m := by
  unfold addConj
  cases hm : alookup k m with
  | none =>
    show alookup k' (m ++ [(k, txt')]) = alookup k' m
    rw [alookup_append]
    cases hk' : alookup k' m with
    | some v => rfl
    | none => simp [alookup, h]
  | some t =>
    exact alookup_map_slash_other m k k' txt' h

theorem joinSlash_cons_append (t t' : Text) (ts : List Text) :
    joinSlash ((t ++ ' ' :: '/' :: ' ' :: t') :: ts) =
      t ++ ' ' :: '/' :: ' ' :: joinSlash (t' :: ts) := by
  cases ts with
  | nil => rfl
  | cons s ss => simp [joinSlash, List.cons_append, List.append_assoc]

theorem coLoop_cells (find : ConjKey → Option Text)
    (tbl : List (ConjKey × List Nat)) :
    ∀ (ks : List ConjKey) (nc : List (CKey4 × Text)) (an : Finset Nat)
      (d : List (ConjKey × List Nat)), extOk tbl d →
      (∀ k ∈ ks, (find k).isSome = true) →
      ∀ k4, alookup k4 (coLoop find ks (nc, an, d)).1 =
        mergedCell (alookup k4 nc)
          ((ks.filter (fun k => key4 k = k4)).map
            (fun k => annotate tbl k ((find k).getD []))) := by
  intro ks
  induction ks with
  | nil =>
    intro nc an d hd hf k4
    simp only [coLoop, List.filter_nil, List.map_nil]
    cases h : alookup k4 nc with
    | none => rfl
    | some t => rfl
  | cons k ks ih =>
    intro nc an d hd hf k4
    obtain ⟨txt, htxt⟩ :=
      Option.isSome_iff_exists.mp (hf k (List.mem_cons_self _ _))
    have hdd := ddGet_of_extOk k hd
    unfold coLoop
    simp only [htxt]
    rw [hdd.1]
    have hann : (if (notesOf tbl k).isEmpty then txt
                 else txt ++ notesText (notesOf tbl k)) = annotate tbl k txt := rfl
    rw [hann]
    rw [ih (addConj nc (key4 k) (annotate tbl k txt))
      (an ∪ (notesOf tbl k).toFinset) ((ddGet d k).2) hdd.2
      (fun k' hk' => hf k' (List.mem_cons_of_mem _ hk')) k4]
    by_cases hk4 : key4 k = k4
    · rw [List.filter_cons, if_pos (by simp [hk4]), List.map_cons]
      rw [hk4, alookup_addConj_eq]
      have htk : ((find k).getD []) = txt := by rw [htxt]; rfl
      rw [htk]
      cases hnc : alookup k4 nc with
      | none => rfl
      | some t =>
        show mergedCell (some (t ++ ' ' :: '/' :: ' ' :: annotate tbl k txt)) _ = _
        simp only [mergedCell]
        rw [joinSlash_cons_append]
        simp [joinSlash]
    · rw [List.filter_cons, if_neg (by simp [hk4]), alookup_addConj_ne _ _ _ _ hk4]

theorem scanRun_cons_ok {ktxt rtxt : Text} {pos c : Nat} {neg fml : Bool}
    {tbl : ConjKey → Option ConjoRow} {o : Nat} {os : List Nat}
    {res : List (ConjKey × Text)}
    (h : scanRun ktxt rtxt pos c neg fml tbl (o :: os) = .ok res) :
    (tbl (pos, c, neg, fml, o) = none ∧ res = []) ∨
    (∃ row kt rt more,
       tbl (pos, c, neg, fml, o) = some row ∧
       conjPart ktxt row = .ok kt ∧ conjPart rtxt row = .ok rt ∧
       scanRun ktxt rtxt pos c neg fml tbl os = .ok more ∧
       res = ((pos, c, neg, fml, o), combineTexts kt rt) :: more) := by
  simp only [scanRun] at h
  cases ht : tbl (pos, c, neg, fml, o) with
  | none =>
    simp only [ht] at h
    injection h with h2
    exact Or.inl ⟨rfl, h2.symm⟩
  | some row =>
    simp only [ht] at h
    cases hk1 : conjPart ktxt row with
    | error e => simp only [hk1] at h; exact Except.noConfusion h
    | ok kt =>
      simp only [hk1] at h
      cases hk2 : conjPart rtxt row with
      | error e => simp only [hk2] at h; exact Except.noConfusion h
      | ok rt =>
        simp only [hk2] at h
        cases hrec : scanRun ktxt rtxt pos c neg fml tbl os with
        | error e => simp only [hrec] at h; exact Except.noConfusion h
        | ok more =>
          simp only [hrec] at h
          injection h with h2
          exact Or.inr ⟨row, kt, rt, more, rfl, hk1, hk2, rfl, h2.symm⟩

theorem scanRun_shape {ktxt rtxt : Text} {pos c : Nat} {neg fml : Bool}
    {tbl : ConjKey → Option ConjoRow} :
    ∀ {os : List Nat} {res : List (ConjKey × Text)},
      scanRun ktxt rtxt pos c neg fml tbl os = .ok res →
      ∀ k ∈ res.map Prod.fst, ∃ o ∈ os, k = (pos, c, neg, fml, o) := by
  intro os
  induction os with
  | nil =>
    intro res h k hk
    simp only [scanRun] at h
    injection h with h2
    subst h2
    simp at hk
  | cons o os ih =>
    intro res h k hk
    rcases scanRun_cons_ok h with ⟨ht, rfl⟩ | ⟨row, kt, rt, more, ht, hk1, hk2, hrec, rfl⟩
    · simp at hk
    · simp only [List.map_cons, List.mem_cons] at hk
      rcases hk with rfl | hk
      · exact ⟨o, List.mem_cons_self _ _, rfl⟩
      · obtain ⟨o', ho', rfl⟩ := ih hrec k hk
        exact ⟨o', List.mem_cons_of_mem _ ho', rfl⟩

theorem scanRun_char {ktxt rtxt : Text} {pos c : Nat} {neg fml : Bool}
    {tbl : ConjKey → Option ConjoRow} :
    ∀ {n s : Nat} {res : List (ConjKey × Text)},
      scanRun ktxt rtxt pos c neg fml tbl (List.range' s n) = .ok res →
      ∀ o, ((pos, c, neg, fml, o) ∈ res.map Prod.fst ↔
        (s ≤ o ∧ o < s + n ∧
         ∀ m, s ≤ m → m ≤ o → (tbl (pos, c, neg, fml, m)).isSome = true)) := by
  intro n
  induction n with
  | zero =>
    intro s res h o
    simp only [List.range'] at h
    simp only [scanRun] at h
    injection h with h2
    subst h2
    simp only [List.map_nil, List.not_mem_nil, false_iff]
    rintro ⟨h1, h2, h3⟩
    omega
  | succ n ih =>
    intro s res h o
    have hr : List.range' s (n + 1) = s :: List.range' (s + 1) n := rfl
    rw [hr] at h
    rcases scanRun_cons_ok h with ⟨ht, rfl⟩ | ⟨row, kt, rt, more, ht, hk1, hk2, hrec, rfl⟩
    · simp only [List.map_nil, List.not_mem_nil, false_iff]
      rintro ⟨h1, h2, h3⟩
      have := h3 s (le_refl s) h1
      rw [ht] at this
      simp at this
    · simp only [List.map_cons, List.mem_cons]
      have hkey : (((pos, c, neg, fml, o) : ConjKey) = (pos, c, neg, fml, s)) ↔ o = s := by
        simp [Prod.ext_iff]
      rw [hkey, ih hrec o]
      constructor
      · rintro (rfl | ⟨h1, h2, h3⟩)
        · refine ⟨le_refl o, by omega, fun m hm1 hm2 => ?_⟩
          have hms : m = o := by omega
          subst hms
          rw [ht]
          rfl
        · refine ⟨by omega, by omega, fun m hm1 hm2 => ?_⟩
          rcases Nat.eq_or_lt_of_le hm1 with rfl | hlt
          · rw [ht]; rfl
          · exact h3 m (by omega) hm2
      · rintro ⟨h1, h2, h3⟩
        by_cases ho : o = s
        · exact Or.inl ho
        · exact Or.inr ⟨by omega, by omega, fun m hm1 hm2 => h3 m (by omega) hm2⟩

theorem goCombos_cons_ok {ktxt rtxt : Text} {pos c : Nat}
    {tbl : ConjKey → Option ConjoRow} {ng fm : Bool}
    {rest : List (Bool × Bool)} {res : List (ConjKey × Text)}
    (h : goCombos ktxt rtxt pos c tbl ((ng, fm) :: rest) = .ok res) :
    ∃ xs ys, scanRun ktxt rtxt pos c ng fm tbl onums = .ok xs ∧
      goCombos ktxt rtxt pos c tbl rest = .ok ys ∧ res = xs ++ ys := by
  simp only [goCombos] at h
  cases h1 : scanRun ktxt rtxt pos c ng fm tbl onums with
  | error e => simp only [h1] at h; exact Except.noConfusion h
  | ok xs =>
    simp only [h1] at h
    cases h2 : goCombos ktxt rtxt pos c tbl rest with
    | error e => simp only [h2] at h; exact Except.noConfusion h
    | ok ys =>
      simp only [h2] at h
      injection h with h3
      exact ⟨xs, ys, rfl, rfl, h3.symm⟩

theorem goCombos_shape {ktxt rtxt : Text} {pos c : Nat}
    {tbl : ConjKey → Option ConjoRow} :
    ∀ {combos : List (Bool × Bool)} {res : List (ConjKey × Text)},
      goCombos ktxt rtxt pos c tbl combos = .ok res →
      ∀ k ∈ res.map Prod.fst,
        ∃ p ∈ combos, ∃ o ∈ onums, k = (pos, c, p.1, p.2, o) := by
  intro combos
  induction combos with
  | nil =>
    intro res h k hk
    simp only [goCombos] at h
    injection h with h2
    subst h2
    simp at hk
  | cons p rest ih =>
    obtain ⟨ng, fm⟩ := p
    intro res h k hk
    obtain ⟨xs, ys, h1, h2, rfl⟩ := goCombos_cons_ok h
    rw [List.map_append, List.mem_append] at hk
    rcases hk with hk | hk
    · obtain ⟨o, ho, rfl⟩ := scanRun_shape h1 k hk
      exact ⟨(ng, fm), List.mem_cons_self _ _, o, ho, rfl⟩
    · obtain ⟨p', hp', o, ho, rfl⟩ := ih h2 k hk
      exact ⟨p', List.mem_cons_of_mem _ hp', o, ho, rfl⟩

theorem goCombos_mem {ktxt rtxt : Text} {pos c : Nat}
    {tbl : ConjKey → Option ConjoRow} :
    ∀ {combos : List (Bool × Bool)} {res : List (ConjKey × Text)},
      goCombos ktxt rtxt pos c tbl combos = .ok res →
      ∀ neg fml n, ((pos, c, neg, fml, n) ∈ res.map Prod.fst ↔
        ((neg, fml) ∈ combos ∧
         ∃ xs, scanRun ktxt rtxt pos c neg fml tbl onums = .ok xs ∧
           (pos, c, neg, fml, n) ∈ xs.map Prod.fst)) := by
  intro combos
  induction combos with
  | nil =>
    intro res h neg fml n
    simp only [goCombos] at h
    injection h with h2
    subst h2
    simp
  | cons p rest ih =>
    obtain ⟨ng, fm⟩ := p
    intro res h neg fml n
    obtain ⟨xs, ys, h1, h2, rfl⟩ := goCombos_cons_ok h
    rw [List.map_append, List.mem_append]
    by_cases hc : neg = ng ∧ fml = fm
    · obtain ⟨rfl, rfl⟩ := hc
      constructor
      · rintro (hk | hk)
        · exact ⟨List.mem_cons_self _ _, xs, h1, hk⟩
        · rcases (ih h2 neg fml n).mp hk with ⟨_, xs', hxs', hk'⟩
          rw [h1] at hxs'
          injection hxs' with h3
          subst h3
          exact ⟨List.mem_cons_self _ _, xs, h1, hk'⟩
      · rintro ⟨_, xs', hxs', hk'⟩
        rw [h1] at hxs'
        injection hxs' with h3
        subst h3
        exact Or.inl hk'
    · have hnot : ((pos, c, neg, fml, n) : ConjKey) ∉ xs.map Prod.fst := by
        intro hk
        obtain ⟨o, ho, hko⟩ := scanRun_shape h1 _ hk
        simp only [Prod.ext_iff] at hko
        exact hc ⟨hko.2.2.1, hko.2.2.2.1⟩
      have hmem : ((neg, fml) ∈ (ng, fm) :: rest) ↔ ((neg, fml) ∈ rest) := by
        simp only [List.mem_cons, Prod.mk.injEq]
        constructor
        · rintro (⟨hq1, hq2⟩ | hq)
          · exact absurd ⟨hq1, hq2⟩ hc
          · exact hq
        · exact Or.inr
      constructor
      · rintro (hk | hk)
        · exact absurd hk hnot
        · rcases (ih h2 neg fml n).mp hk with ⟨hq, hx⟩
          exact ⟨hmem.mpr hq, hx⟩
      · rintro ⟨hq, hx⟩
        exact Or.inr ((ih h2 neg fml n).mpr ⟨hmem.mp hq, hx⟩)

theorem goKinds_cons_ok {ktxt rtxt : Text} {pos : Nat}
    {tbl : ConjKey → Option ConjoRow} {c : Nat} {cs : List Nat}
    {res : List (ConjKey × Text)}
    (h : goKinds ktxt rtxt pos tbl (c :: cs) = .ok res) :
    ∃ xs ys, goCombos ktxt rtxt pos c tbl cellCombos = .ok xs ∧
      goKinds ktxt rtxt pos tbl cs = .ok ys ∧ res = xs ++ ys := by
  simp only [goKinds] at h
  cases h1 : goCombos ktxt rtxt pos c tbl cellCombos with
  | error e => simp only [h1] at h; exact Except.noConfusion h
  | ok xs =>
    simp only [h1] at h
    cases h2 : goKinds ktxt rtxt pos tbl cs with
    | error e => simp only [h2] at h; exact Except.noConfusion h
    | ok ys =>
      simp only [h2] at h
      injection h with h3
      exact ⟨xs, ys, rfl, rfl, h3.symm⟩

theorem goKinds_shape {ktxt rtxt : Text} {pos : Nat}
    {tbl : ConjKey → Option ConjoRow} :
    ∀ {kinds : List Nat} {res : List (ConjKey × Text)},
      goKinds ktxt rtxt pos tbl kinds = .ok res →
      ∀ k ∈ res.map Prod.fst,
        ∃ c ∈ kinds, ∃ p ∈ cellCombos, ∃ o ∈ onums, k = (pos, c, p.1, p.2, o) := by
  intro kinds
  induction kinds with
  | nil =>
    intro res h k hk
    simp only [goKinds] at h
    injection h with h2
    subst h2
    simp at hk
  | cons c cs ih =>
    intro res h k hk
    obtain ⟨xs, ys, h1, h2, rfl⟩ := goKinds_cons_ok h
    rw [List.map_append, List.mem_append] at hk
    rcases hk with hk | hk
    · obtain ⟨p, hp, o, ho, rfl⟩ := goCombos_shape h1 k hk
      exact ⟨c, List.mem_cons_self _ _, p, hp, o, ho, rfl⟩
    · obtain ⟨c', hc', p, hp, o, ho, rfl⟩ := ih h2 k hk
      exact ⟨c', List.mem_cons_of_mem _ hc', p, hp, o, ho, rfl⟩

theorem goKinds_mem {ktxt rtxt : Text} {pos : Nat}
    {tbl : ConjKey → Option ConjoRow} :
    ∀ {kinds : List Nat} {res : List (ConjKey × Text)},
      goKinds ktxt rtxt pos tbl kinds = .ok res →
      ∀ c neg fml n, ((pos, c, neg, fml, n) ∈ res.map Prod.fst ↔
        (c ∈ kinds ∧
         ∃ xs, goCombos ktxt rtxt pos c tbl cellCombos = .ok xs ∧
           (pos, c, neg, fml, n) ∈ xs.map Prod.fst)) := by
  intro kinds
  induction kinds with
  | nil =>
    intro res h c neg fml n
    simp only [goKinds] at h
    injection h with h2
    subst h2
    simp
  | cons c0 cs ih =>
    intro res h c neg fml n
    obtain ⟨xs, ys, h1, h2, rfl⟩ := goKinds_cons_ok h
    rw [List.map_append, List.mem_append]
    by_cases hc : c = c0
    · subst hc
      constructor
      · rintro (hk | hk)
        · exact ⟨List.mem_cons_self _ _, xs, h1, hk⟩
        · rcases (ih h2 c neg fml n).mp hk with ⟨_, xs', hxs', hk'⟩
          rw [h1] at hxs'
          injection hxs' with h3
          subst h3
          exact ⟨List.mem_cons_self _ _, xs, h1, hk'⟩
      · rintro ⟨_, xs', hxs', hk'⟩
        rw [h1] at hxs'
        injection hxs' with h3
        subst h3
        exact Or.inl hk'
    · have hnot : ((pos, c, neg, fml, n) : ConjKey) ∉ xs.map Prod.fst := by
        intro hk
        obtain ⟨p, hp, o, ho, hko⟩ := goCombos_shape h1 _ hk
        simp only [Prod.ext_iff] at hko
        exact hc hko.2.1
      have hmem : (c ∈ c0 :: cs) ↔ (c ∈ cs) := by
        simp only [List.mem_cons]
        exact ⟨fun hq => hq.resolve_left hc, Or.inr⟩
      constructor
      · rintro (hk | hk)
        · exact absurd hk hnot
        · rcases (ih h2 c neg fml n).mp hk with ⟨hcs, hx⟩
          exact ⟨hmem.mpr hcs, hx⟩
      · rintro ⟨hq, hx⟩
        exact Or.inr ((ih h2 c neg fml n).mpr ⟨hmem.mp hq, hx⟩)

theorem goCombos_scan_ok {ktxt rtxt : Text} {pos c : Nat}
    {tbl : ConjKey → Option ConjoRow} :
    ∀ {combos : List (Bool × Bool)} {res : List (ConjKey × Text)},
      goCombos ktxt rtxt pos c tbl combos = .ok res →
      ∀ p ∈ combos, ∃ xs, scanRun ktxt rtxt pos c p.1 p.2 tbl onums = .ok xs := by
  intro combos
  induction combos with
  | nil => intro res h p hp; simp at hp
  | cons q rest ih =>
    obtain ⟨ng, fm⟩ := q
    intro res h p hp
    obtain ⟨xs, ys, h1, h2, rfl⟩ := goCombos_cons_ok h
    rcases List.mem_cons.mp hp with rfl | hp
    · exact ⟨xs, h1⟩
    · exact ih h2 p hp

theorem goKinds_combos_ok {ktxt rtxt : Text} {pos : Nat}
    {tbl : ConjKey → Option ConjoRow} :
    ∀ {kinds : List Nat} {res : List (ConjKey × Text)},
      goKinds ktxt rtxt pos tbl kinds = .ok res →
      ∀ c ∈ kinds, ∃ xs, goCombos ktxt rtxt pos c tbl cellCombos = .ok xs := by
  intro kinds
  induction kinds with
  | nil => intro res h c hc; simp at hc
  | cons c0 cs ih =>
    intro res h c hc
    obtain ⟨xs, ys, h1, h2, rfl⟩ := goKinds_cons_ok h
    rcases List.mem_cons.mp hc with rfl | hc
    · exact ⟨xs, h1⟩
    · exact ih h2 c hc

/-! ### C5, C6, C7: the variant merger -/

/-- C5 counterexample: the source appends the note ids in the order they
    sit in the `conjo_notes` table (`','.join` over the stored list, no
    sort), so two variant rows of the same cell whose second row stores
    the notes `[6, 5]` merge to `a[3] / b[6,5]`, not the numerically
    sorted `a[3] / b[5,6]` the claim requires. -/
theorem combine_onums_sorted_notes_cex :
    (combine_onums
        [((1, 1, false, false, 1), ['a']), ((1, 1, false, false, 2), ['b'])]
        [((1, 1, false, false, 1), [3]), ((1, 1, false, false, 2), [6, 5])]).1 =
      [(((1, 1, false, false) : CKey4),
        ['a', '[', '3', ']', ' ', '/', ' ', 'b', '[', '6', ',', '5', ']'])] ∧
    ['a', '[', '3', ']', ' ', '/', ' ', 'b', '[', '6', ',', '5', ']'] ≠
      ['a', '[', '3', ']', ' ', '/', ' ', 'b', '[', '5', ',', '6', ']'] := by decide

/-- C5 amended: for every forms mapping and table, the merger appends to
    each source entry's text a bracketed, comma-joined list of its note
    ids in the order they are stored in the table, exactly when that
    note set is non-empty (the per-entry `annotate`), each merged cell
    being the `' / '`-join of its entries' annotated texts in ascending
    sorted key order; and the note-id set it returns is the union of the
    note ids of all processed entries. -/
theorem combine_onums_note_append :
    (∀ (conjs : List (ConjKey × Text)) (tbl : List (ConjKey × List Nat))
       (k4 : CKey4),
       alookup k4 (combine_onums conjs tbl).1 =
         (match (sortKeys (conjs.map Prod.fst)).filter
             (fun k => key4 k = k4) with
          | [] => none
          | grp => some (joinSlash (grp.map (fun k =>
              annotate tbl k ((alookup k conjs).getD [])))))) ∧
    (∀ (conjs : List (ConjKey × Text)) (tbl : List (ConjKey × List Nat)),
       (combine_onums conjs tbl).2.1 =
         conjs.foldr (fun e acc => (notesOf tbl e.1).toFinset ∪ acc) ∅) := by
  constructor
  · intro conjs tbl k4
    have hall : ∀ k ∈ sortKeys (conjs.map Prod.fst),
        ((fun k => alookup k conjs) k).isSome = true := by
      intro k hk
      exact alookup_isSome_of_mem ((List.perm_insertionSort keyLe _).mem_iff.mp hk)
    unfold combine_onums
    rw [coLoop_cells (fun k => alookup k conjs) tbl
      (sortKeys (conjs.map Prod.fst)) [] ∅ tbl ⟨[], by simp, by simp⟩ hall k4]
    cases hgrp : (sortKeys (conjs.map Prod.fst)).filter (fun k => key4 k = k4) with
    | nil => rfl
    | cons g gs => rfl
  · intro conjs tbl
    unfold combine_onums
    rw [coLoop_notes _ tbl _ _ _ _ ⟨[], by simp, by simp⟩]
    have hall : ∀ k ∈ sortKeys (conjs.map Prod.fst),
        (alookup k conjs).isSome = true := by
      intro k hk
      exact alookup_isSome_of_mem ((List.perm_insertionSort keyLe _).mem_iff.mp hk)
    rw [List.filter_eq_self.mpr hall]
    have hperm : (sortKeys (conjs.map Prod.fst)).Perm (conjs.map Prod.fst) :=
      List.perm_insertionSort keyLe (conjs.map Prod.fst)
    rw [foldr_union_perm (fun k => (notesOf tbl k).toFinset) hperm ∅]
    rw [List.foldr_map]
    simp

/-- C6: merging two forms mappings with the same key-value contents in
    any insertion orders yields identical results, because the merger
    sorts the 5-tuple keys before folding and looks entries up by key. -/
theorem combine_onums_deterministic (l₁ l₂ : List (ConjKey × Text))
    (tbl : List (ConjKey × List Nat))
    (hnd : (l₁.map Prod.fst).Nodup) (hp : l₁.Perm l₂) :
    combine_onums l₁ tbl = combine_onums l₂ tbl := by
  have hk : sortKeys (l₁.map Prod.fst) = sortKeys (l₂.map Prod.fst) :=
    sortKeys_eq_of_perm (hp.map Prod.fst)
  have hf : (fun k => alookup k l₁) = (fun k => alookup k l₂) :=
    funext (alookup_perm hp hnd)
  unfold combine_onums
  rw [hk, hf]

/-- C6 witness: the same two-variant mapping in both insertion orders
    merges to the same result. -/
theorem combine_onums_deterministic_witness :
    combine_onums [((1, 1, false, false, 2), ['b']), ((1, 1, false, false, 1), ['a'])] [] =
      combine_onums [((1, 1, false, false, 1), ['a']), ((1, 1, false, false, 2), ['b'])] [] :=
  combine_onums_deterministic _ _ [] (by decide) (by decide)

/-- C7 counterexample: `ct['conjo_notes']` is a `defaultdict(list)`, so
    the merger's note lookup on a key absent from the table inserts that
    key with an empty list: the table bundle is mutated by the merge,
    contradicting the claim that no entry is added. -/
theorem combine_onums_mutation_cex :
    (combine_onums [((1, 1, false, false, 1), ['x'])] []).2.2 =
      [((1, 1, false, false, 1), ([] : List Nat))] ∧
    [((1, 1, false, false, 1), ([] : List Nat))] ≠
      ([] : List (ConjKey × List Nat)) := by decide

/-- C7 amended: the merger never removes or modifies an existing entry
    of the `conjo_notes` table (and touches no other table of the
    bundle), but its defaultdict lookups may append entries with empty
    note lists for queried keys that were absent. -/
theorem combine_onums_notes_table (conjs : List (ConjKey × Text))
    (tbl : List (ConjKey × List Nat)) :
    ∃ ext, (combine_onums conjs tbl).2.2 = tbl ++ ext ∧
      ∀ p ∈ ext, p.2 = ([] : List Nat) :=
  coLoop_extOk _ tbl _ _ _ _ ⟨[], by simp, by simp⟩

/-! ### C1: kana classification bounds -/

/-- C1 counterexample: the source tests `txt[-2] > 'あ'` with a strict
    lower bound, so a word whose second-to-last character is exactly あ
    is classified as non-kana — `construct` takes the kanji branch and
    appends `euphk` — contradicting the claim's inclusive lower bound. -/
theorem iskana_inclusive_claim_cex :
    iskana ['あ', 'あ'] = false ∧
    construct ['あ', 'あ'] 1 [] ['か'] ['こ'] = .ok ['こ'] := by decide

/-- C1 amended: for every word of length at least 2 the suffix-rewrite
    classifies it as kana exactly when its second-to-last character is
    strictly greater than あ and at most ん; in particular exactly あ
    classifies as non-kana, exactly ん as kana, and a codepoint outside
    either bound as non-kana. -/
theorem iskana_strict_bound (pre : Text) (c last : Char) :
    iskana (pre ++ [c, last]) = (decide ('あ' < c) && decide (c ≤ 'ん')) := by
  unfold iskana
  rw [List.reverse_append]
  rfl

/-! ### C2: suffix-rewrite result -/

/-- C2 counterexample: with `stem_trim = 0` and no euphonic field the
    effective trim length is 0, and Python's `txt[:-0]` is the empty
    string, so `construct` drops the whole word instead of removing
    zero characters: the claim's formula (`constructSpec`) predicts
    たべた but the code yields た. -/
theorem construct_trim_claim_cex :
    construct ['た', 'べ'] 0 ['た'] [] [] = .ok ['た'] ∧
    constructSpec ['た', 'べ'] 0 ['た'] [] [] = .ok ['た', 'べ', 'た'] ∧
    (['た'] : Text) ≠ ['た', 'べ', 'た'] := by decide

/-- C2 amended: for every word of length at least 2 and every rule whose
    effective trim length (stem_trim, plus 1 when the euphonic
    replacement matching the word's class is present) is at least 1, the
    suffix-rewrite result is the word with the effective trim length of
    characters removed from its end, followed by the euphonic
    replacement matching the word's class (nothing if absent), followed
    by the okurigana. -/
theorem construct_effective_trim (txt : Text) (stem : Nat)
    (okuri euphr euphk : Text) (hlen : 2 ≤ txt.length)
    (heff : 1 ≤ effTrim txt stem euphr euphk) :
    construct txt stem okuri euphr euphk =
      .ok (txt.take (txt.length - effTrim txt stem euphr euphk) ++
           (if iskana txt then euphr else euphk) ++ okuri) := by
  have hb : construct txt stem okuri euphr euphk =
      (if txt.length < 2 then .error constructErrMsg else
       if iskana txt then
         .ok (pyDropSuffix txt (effTrim txt stem euphr euphk) ++ euphr ++ okuri)
       else
         .ok (pyDropSuffix txt (effTrim txt stem euphr euphk) ++ euphk ++ okuri)) := rfl
  have h0 : pyDropSuffix txt (effTrim txt stem euphr euphk) =
      txt.take (txt.length - effTrim txt stem euphr euphk) := by
    unfold pyDropSuffix
    rw [if_neg (by omega)]
  rw [hb, if_neg (by omega)]
  simp only [h0]
  by_cases hk : iskana txt
  · rw [if_pos hk, if_pos hk]
  · rw [if_neg hk, if_neg hk]

/-- C2 witness: the plain v1 past example; `stem_trim = 1`, okurigana た,
    no euphonic fields, over input たべる gives たべた. -/
theorem construct_effective_trim_witness :
    construct "たべる".toList 1 "た".toList [] [] = .ok "たべた".toList :=
  (construct_effective_trim "たべる".toList 1 "た".toList [] []
    (by decide) (by decide)).trans (by decide)

/-! ### C4: minimum-length guard -/

/-- C4: applying the suffix-rewrite to a word with fewer than 2
    characters fails with the domain error, and in `conjugate` the error
    propagates to the caller (shown here for a table with a single
    conjugation kind whose first rule exists): the word is not silently
    skipped. -/
theorem construct_short_word_error :
    (∀ (txt : Text) (stem : Nat) (okuri euphr euphk : Text),
       txt.length < 2 →
       construct txt stem okuri euphr euphk = .error constructErrMsg) ∧
    (∀ (ct : ConjTable) (pos c : Nat) (nm : Text) (row : ConjoRow)
       (ktxt rtxt : Text),
       ct.conj = [(c, nm)] → ct.conjo (pos, c, false, false, 1) = some row →
       ktxt.length = 1 →
       conjugate ktxt rtxt pos ct = .error constructErrMsg) := by
  constructor
  · intro txt stem okuri euphr euphk h
    unfold construct
    rw [if_pos h]
  · intro ct pos c nm row ktxt rtxt hconj hrow hlen
    have hkind : (ct.conj.map Prod.fst).insertionSort (· ≤ ·) = [c] := by
      rw [hconj]; rfl
    have hne : ktxt.isEmpty = false := by
      cases ktxt with
      | nil => simp at hlen
      | cons a as => rfl
    have hcon : construct ktxt row.stem row.okuri row.euphr row.euphk =
        .error constructErrMsg := by
      unfold construct
      rw [if_pos (by omega)]
    have honums : onums = 1 :: List.range' 2 8 := rfl
    unfold conjugate
    rw [hkind]
    simp [goKinds, goCombos, cellCombos, scanRun, conjPart, honums, hrow, hne, hcon]

/-- C4 witness: a 1-character word fails through `construct` and through
    `conjugate` on a concrete one-kind table. -/
theorem construct_short_word_error_witness :
    construct ['x'] 1 ['a'] [] [] = .error constructErrMsg ∧
    conjugate ['x'] [] 2
      ⟨[(1, ['a'])],
       fun k => if k = (2, 1, false, false, 1)
                then some ⟨1, ['た'], [], []⟩ else none,
       []⟩ = .error constructErrMsg :=
  ⟨construct_short_word_error.1 ['x'] 1 ['a'] [] [] (by decide),
   construct_short_word_error.2
     ⟨[(1, ['a'])],
      fun k => if k = (2, 1, false, false, 1)
               then some ⟨1, ['た'], [], []⟩ else none,
      []⟩ 2 1 ['a'] ⟨1, ['た'], [], []⟩ ['x'] [] rfl (by decide) rfl⟩

/-! ### C8: the boolean column converter -/

/-- C8: the boolean column converter returns False when the string's
    leading character is f or F, True when it is t or T, and fails with
    ValueError carrying the argument for every other string, including
    the empty string. -/
theorem sbool_leading_char :
    (∀ (c : Char) (cs : Text),
       sbool (c :: cs) =
         (if c = 'f' ∨ c = 'F' then .ok false
          else if c = 't' ∨ c = 'T' then .ok true
          else .error (c :: cs))) ∧
    sbool ([] : Text) = .error [] := by
  refine ⟨?_, rfl⟩
  intro c cs
  unfold sbool pyStartswith
  simp only [List.map]
  by_cases hf : c = 'f' ∨ c = 'F'
  · have h1 : Char.toLower c = 'f' := (toLower_eq_f c).mpr hf
    simp [h1, hf]
  · have h1 : Char.toLower c ≠ 'f' := fun h => hf ((toLower_eq_f c).mp h)
    by_cases ht : c = 't' ∨ c = 'T'
    · have h2 : Char.toLower c = 't' := (toLower_eq_t c).mpr ht
      simp [h2, hf, ht, h1]
    · have h2 : Char.toLower c ≠ 't' := fun h => ht ((toLower_eq_t c).mp h)
      simp [hf, ht, h1, h2]

/-! ### C3, C9, C10: the variant scan of `conjugate` -/

/-- C3 counterexample: the scan is `range(1,10)`, capped at variant 9,
    so for a table whose cell has a contiguous run of variants 1..10,
    `conjugate` does not produce the present variant 10 even though no
    index below it is absent. -/
theorem conjugate_variant_cap_cex :
    conjugate "たべる".toList [] 1 ctW3x = .ok resW3x ∧
    ((1, 1, false, false, 10) : ConjKey) ∉ resW3x.map Prod.fst ∧
    (List.range' 1 10).all
      (fun m => (ctW3x.conjo (1, 1, false, false, m)).isSome) = true := by decide

/-- C3 amended: within the scan bound of variant indices 1 through 9,
    `conjugate` produces a form exactly for the prefix run of present
    variant indices: a key is in the result
    iff its index is between 1 and 9 and every index from 1 up to it is
    present in the table; in particular no present variant below the
    first gap (or the cap) is skipped and no index past the first gap is
    produced. -/
theorem conjugate_variant_run (ct : ConjTable) (ktxt rtxt : Text)
    (pos c : Nat) (neg fml : Bool) (n : Nat) (res : List (ConjKey × Text))
    (hok : conjugate ktxt rtxt pos ct = .ok res)
    (hc : c ∈ ct.conj.map Prod.fst) :
    ((pos, c, neg, fml, n) ∈ res.map Prod.fst ↔
      (1 ≤ n ∧ n ≤ 9 ∧
       ∀ m ∈ List.range' 1 n, (ct.conjo (pos, c, neg, fml, m)).isSome = true)) := by
  unfold conjugate at hok
  have hcs : c ∈ (ct.conj.map Prod.fst).insertionSort (· ≤ ·) :=
    (List.perm_insertionSort _ _).mem_iff.mpr hc
  obtain ⟨xs, hxs⟩ := goKinds_combos_ok hok c hcs
  obtain ⟨zs, hzs⟩ := goCombos_scan_ok hxs (neg, fml)
    (by cases neg <;> cases fml <;> decide)
  have honums : onums = List.range' 1 9 := rfl
  rw [honums] at hzs
  have hchar := scanRun_char hzs
  rw [goKinds_mem hok c neg fml n]
  constructor
  · rintro ⟨_, xs', hxs', hk⟩
    rw [hxs] at hxs'
    injection hxs' with he
    subst he
    rcases (goCombos_mem hxs neg fml n).mp hk with ⟨_, zs', hzs', hk'⟩
    rw [honums, hzs] at hzs'
    injection hzs' with he2
    subst he2
    rcases (hchar n).mp hk' with ⟨h1, h2, h3⟩
    refine ⟨h1, by omega, ?_⟩
    intro m hm
    rw [List.mem_range'_1] at hm
    exact h3 m hm.1 (by omega)
  · rintro ⟨h1, h2, h3⟩
    refine ⟨hcs, xs, hxs, ?_⟩
    rw [goCombos_mem hxs neg fml n]
    refine ⟨by cases neg <;> cases fml <;> decide, zs, by rw [honums]; exact hzs, ?_⟩
    rw [hchar n]
    refine ⟨h1, by omega, ?_⟩
    intro m hm1 hm2
    exact h3 m (by rw [List.mem_range'_1]; omega)

/-- C3 witness: on a concrete two-variant table the second variant of
    the run is produced. -/
theorem conjugate_variant_run_witness :
    ((7, 1, false, false, 2) : ConjKey) ∈ resW3.map Prod.fst :=
  (conjugate_variant_run ctW3 "たべる".toList [] 7 1 false false 2 resW3
      (by decide) (by decide)).mpr
    ⟨by decide, by decide, by decide⟩

/-! ### C9: shape of the keys produced by `conjugate` -/

/-- C9: every key of a successful `conjugate` result is a 5-tuple whose
    first component is the given part-of-speech id, whose negative and
    formal components are booleans (by the key type), and whose variant
    index lies between 1 and 9 inclusive. -/
theorem conjugate_key_invariant (ct : ConjTable) (ktxt rtxt : Text)
    (pos : Nat) (res : List (ConjKey × Text))
    (hok : conjugate ktxt rtxt pos ct = .ok res) :
    ∀ k ∈ res.map Prod.fst, k.1 = pos ∧ 1 ≤ k.2.2.2.2 ∧ k.2.2.2.2 ≤ 9 := by
  intro k hk
  unfold conjugate at hok
  obtain ⟨c, hc, p, hp, o, ho, rfl⟩ := goKinds_shape hok k hk
  have ho' : o ∈ List.range' 1 9 := ho
  have hob := List.mem_range'_1.mp ho'
  exact ⟨rfl, by show 1 ≤ o; omega, by show o ≤ 9; omega⟩

/-- C9 witness: the invariant evaluated on the single key produced from
    a concrete one-rule table. -/
theorem conjugate_key_invariant_witness :
    ((5, 1, false, false, 1) : ConjKey).1 = 5 ∧
    1 ≤ ((5, 1, false, false, 1) : ConjKey).2.2.2.2 ∧
    ((5, 1, false, false, 1) : ConjKey).2.2.2.2 ≤ 9 :=
  conjugate_key_invariant ctW9 "たべる".toList [] 5 resW9 (by decide)
    (5, 1, false, false, 1) (by decide)

/-! ### C10: part of speech without rules -/

/-- C10: for a part-of-speech id with no rule in the `conjo` table for
    any conjugation kind, `conjugate` returns the empty mapping and
    raises no error, whatever the kanji and kana inputs. -/
theorem conjugate_no_rules_empty (ct : ConjTable) (ktxt rtxt : Text)
    (pos : Nat)
    (hnone : ∀ c neg fml onum, ct.conjo (pos, c, neg, fml, onum) = none) :
    conjugate ktxt rtxt pos ct = .ok [] := by
  unfold conjugate
  generalize (ct.conj.map Prod.fst).insertionSort (· ≤ ·) = kinds
  induction kinds with
  | nil => rfl
  | cons c cs ih =>
    have hscan : ∀ neg fml,
        scanRun ktxt rtxt pos c neg fml ct.conjo onums = .ok [] := by
      intro neg fml
      have h1 : onums = 1 :: List.range' 2 8 := rfl
      rw [h1]
      simp only [scanRun, hnone c neg fml 1]
    have hcombo : goCombos ktxt rtxt pos c ct.conjo cellCombos = .ok [] := by
      simp only [cellCombos, goCombos, hscan]
      rfl
    simp only [goKinds, hcombo, ih]
    rfl

/-- C10 witness: a table with no rule at all for pos 3 yields the empty
    mapping for a 1-character word without raising the domain error. -/
theorem conjugate_no_rules_empty_witness :
    conjugate ['x'] [] 3 ⟨[(1, ['a'])], fun _ => none, []⟩ = .ok [] :=
  conjugate_no_rules_empty ⟨[(1, ['a'])], fun _ => none, []⟩ ['x'] [] 3
    (fun _ _ _ _ => rfl)

end Jconj
